import Mathlib

/-!
Verification of the silence-removal planner (src/index.js).

Shallow embedding of the pure logic of `src/index.js`:

* the interval planner (lines 81–91 of `removeSilentFromVideoFile`),
* the padding pass `adjustNotSilentPeriodList` (lines 191–203),
* the silence-marker scraper `getSilentPeriodListFromSilenceDetectOutput`
  (lines 162–189),
* the concat listing-file content (lines 105–110),
* the post-planning effect sequence (lines 95–115),
* the CLI dispatcher `main` (lines 14–25).

Timestamps are modelled as rationals (`ℚ`): the JavaScript source computes on
IEEE doubles, but every claim under study concerns the exact interval algebra
of the algorithm, and the diagnostic numerals parsed by the source are exact
decimals.  Diagnostic text is modelled as its character sequence; the
multiline regex scan of the source is modelled position by position: a match
may start only at a line-start position (the `m` flag), but may itself run
across line terminators, since both `[^\]]*` and `\s` match them.
-/

namespace RemoveSilentScene

/-! ## Definitions -/

/-! ### Tuning constants (src/index.js lines 10–12) -/

def minimumNotSilentDuration : ℚ := 1

def remainingSilentDuration : ℚ := 2 / 5

def minimumSilentDuration : ℚ := 1 / 5

/-! ### Interval planner (src/index.js lines 81–91)

The source loop mutates `notSilentPeriodList` (the accumulator) and
`lastEndPosition`; we embed it as a left fold over the silence list carrying
exactly that pair of state variables, followed by the trailing `if`.
The minimum-gap constant is passed explicitly (`minKeep`), instantiated with
`minimumNotSilentDuration` by the program. -/

def notSilentStep (minKeep : ℚ) (st : List (ℚ × ℚ) × ℚ) (p : ℚ × ℚ) :
    List (ℚ × ℚ) × ℚ :=
  ((if p.1 - st.2 > minKeep then st.1 ++ [(st.2, p.1)] else st.1), p.2)

def notSilentPeriodListOf (minKeep videoDuration : ℚ)
    (silentPeriodList : List (ℚ × ℚ)) : List (ℚ × ℚ) :=
  let st := silentPeriodList.foldl (notSilentStep minKeep) ([], 0)
  if videoDuration - st.2 > minKeep then st.1 ++ [(st.2, videoDuration)] else st.1

/-- The cursor algorithm in the words of the spec (§4.2 steps 1–3): starting
from a cursor, for each silence `(s, e)` emit `(cursor, s)` exactly when
`s - cursor > minKeep`, then set the cursor to `e`; at the end emit
`(cursor, D)` exactly when `D - cursor > minKeep`. -/
def planKeepsFrom (minKeep cursor videoDuration : ℚ) :
    List (ℚ × ℚ) → List (ℚ × ℚ)
  | [] => if videoDuration - cursor > minKeep then [(cursor, videoDuration)] else []
  | p :: rest =>
      (if p.1 - cursor > minKeep then [(cursor, p.1)] else []) ++
        planKeepsFrom minKeep p.2 videoDuration rest

/-! ### Well-formed silence input and the span algebra for C1

`SilOK cursor D l` says the silence list is in time order, non-overlapping,
starts at or after `cursor`, and ends by `D` — the claim's "non-overlapping,
time-sorted silence intervals", made relative to a cursor so it can follow
the planner's recursion.  Spans are read half-open (`[a, b)`), the standard
convention under which a partition of `[0, D)` into silences and gaps is
exact. -/

def SilOK (cursor videoDuration : ℚ) : List (ℚ × ℚ) → Prop
  | [] => cursor ≤ videoDuration
  | p :: rest => cursor ≤ p.1 ∧ p.1 ≤ p.2 ∧ SilOK p.2 videoDuration rest

/-- Membership in the union of a list of half-open spans `[p.1, p.2)`. -/
def memberHO (l : List (ℚ × ℚ)) (x : ℚ) : Prop := ∃ p ∈ l, p.1 ≤ x ∧ x < p.2

/-- The complement spans ("gaps") of a silence list against `[cursor, D)`:
one span before each silence and one final span up to `D`. -/
def gapSpansFrom (cursor videoDuration : ℚ) : List (ℚ × ℚ) → List (ℚ × ℚ)
  | [] => [(cursor, videoDuration)]
  | p :: rest => (cursor, p.1) :: gapSpansFrom p.2 videoDuration rest

/-! ### Padding pass (src/index.js lines 191–203)

`adjustNotSilentPeriodList` iterates over indices `i` of the input and pushes
the interval with its start moved earlier by `remaining / 2` unless `i = 0`
and its end moved later by `remaining / 2` unless `i = n - 1`.  The constant
`remainingSilentDuration` is passed explicitly as `remaining`. -/

def adjustNotSilentPeriodList (remaining : ℚ) (periodList : List (ℚ × ℚ)) :
    List (ℚ × ℚ) :=
  (List.range periodList.length).map fun i =>
    let p := periodList.getD i (0, 0)
    ((if i = 0 then p.1 else p.1 - remaining / 2),
     (if i = periodList.length - 1 then p.2 else p.2 + remaining / 2))

/-! ### Diagnostic parser (src/index.js lines 162–189)

The source runs `matchAll` with the multiline pattern
`^\[silencedetect[^\]]*\]\s*silence_(start|end)\s*:\s*(\d+(?:\.\d+)?)` and
then pairs the matches with a one-slot state machine.  The scan is modelled
exactly: the `m` flag only constrains where a match may START (position 0 or
just after a line terminator), while the match itself may run across line
terminators, because both `[^\]]*` and `\s` match them.  The scanner
therefore walks the text position by position, attempts the pattern at every
line-start position, and on success resumes right after the match, as
`matchAll` does with its `lastIndex`. -/

/-- The JavaScript regex class `\s` (ECMA WhiteSpace plus LineTerminator):
tab, LF, VT, FF, CR, space, NBSP, and the Unicode space separators, line and
paragraph separators, and the BOM. -/
def isWsChar (c : Char) : Bool :=
  c = ' ' || c = '\t' || c = '\n' || c = '\x0b' || c = '\x0c' || c = '\r' ||
  c = '\u00a0' || c = '\u1680' || c = '\u2000' || c = '\u2001' || c = '\u2002' ||
  c = '\u2003' || c = '\u2004' || c = '\u2005' || c = '\u2006' || c = '\u2007' ||
  c = '\u2008' || c = '\u2009' || c = '\u200a' || c = '\u2028' || c = '\u2029' ||
  c = '\u202f' || c = '\u205f' || c = '\u3000' || c = '\ufeff'

/-- The JavaScript LineTerminator class, after which a multiline `^`
matches. -/
def isLineTerminator (c : Char) : Bool :=
  c = '\n' || c = '\r' || c = '\u2028' || c = '\u2029'

def skipWs (cs : List Char) : List Char := cs.dropWhile isWsChar

/-- Value of a big-endian string of decimal digit characters. -/
def digitsToNat (ds : List Char) : Nat :=
  ds.foldl (fun a c => 10 * a + (c.toNat - 48)) 0

/-- The numeral pattern `\d+(?:\.\d+)?` of the marker regex, maximal munch:
digits, then optionally a dot followed by at least one digit (a dot with no
digit after it is left unconsumed).  Returns the exact rational value of the
matched decimal (the source calls `parseFloat` on the captured text) and the
text remaining after the match. -/
def parseNumber (cs : List Char) : Option (ℚ × List Char) :=
  let ds := cs.takeWhile Char.isDigit
  if ds.isEmpty then none
  else
    match cs.dropWhile Char.isDigit with
    | c :: rest =>
        if c = '.' then
          let fs := rest.takeWhile Char.isDigit
          if fs.isEmpty then some (digitsToNat ds, c :: rest)
          else
            some ((digitsToNat ds : ℚ) + (digitsToNat fs : ℚ) / (10 : ℚ) ^ fs.length,
              rest.dropWhile Char.isDigit)
        else some (digitsToNat ds, c :: rest)
    | [] => some (digitsToNat ds, [])

/-- Consume a literal pattern: `dropPrefixChars pat cs` consumes the literal pattern `pat` from the
front of `cs`, failing if it is not there. -/
def dropPrefixChars : List Char → List Char → Option (List Char)
  | [], cs => some cs
  | _ :: _, [] => none
  | p :: ps, c :: cs => if c = p then dropPrefixChars ps cs else none

/-- Scan `[^\]]*\]`: drop everything up to the first `]` and consume it. -/
def dropToRBracket (cs : List Char) : Option (List Char) :=
  match cs.dropWhile (fun c => c != ']') with
  | [] => none
  | _ :: cs1 => some cs1

/-- The alternation `(start|end)`: `start` is tried first, as in the regex. -/
def parseStartOrEnd (cs : List Char) : Option (Bool × List Char) :=
  match dropPrefixChars "start".toList cs with
  | some cs1 => some (true, cs1)
  | none =>
      match dropPrefixChars "end".toList cs with
      | some cs1 => some (false, cs1)
      | none => none

/-- The literal `:` after optional whitespace. -/
def parseColon (cs : List Char) : Option (List Char) :=
  match skipWs cs with
  | [] => none
  | c :: cs1 => if c = ':' then some cs1 else none

/-- Attempt the marker pattern
`\[silencedetect[^\]]*\]\s*silence_(start|end)\s*:\s*(\d+(?:\.\d+)?)` at the
current position (the `^` anchor is enforced by the scanner); `true` stands
for `silence_start`.  On success also returns the text remaining after the
match, mirroring the advance of the regex `lastIndex`.  Both `[^\]]*` and
`\s*` may consume line terminators, as in JavaScript. -/
def matchMarker (cs : List Char) : Option ((Bool × ℚ) × List Char) :=
  (dropPrefixChars "[silencedetect".toList cs).bind fun cs0 =>
    (dropToRBracket cs0).bind fun cs1 =>
      (dropPrefixChars "silence_".toList (skipWs cs1)).bind fun cs2 =>
        (parseStartOrEnd cs2).bind fun tycs =>
          (parseColon tycs.2).bind fun cs5 =>
            (parseNumber (skipWs cs5)).bind fun qr => some ((tycs.1, qr.1), qr.2)

/-- The `matchAll` scan: walk the text one position at a time carrying
whether the current position is a line start (offset 0, or just after a
LineTerminator); attempt the pattern exactly at line starts — at any other
position the `^` anchor rules a match out — and after a match resume right
after its end.  The fuel argument only bounds the recursion; it is called
with more fuel than there are characters and a successful match always
consumes at least one character, so the fuel never runs out. -/
def scanMarkersAux : Nat → Bool → List Char → List (Bool × ℚ)
  | 0, _, _ => []
  | _ + 1, _, [] => []
  | fuel + 1, atLineStart, c :: cs =>
      if atLineStart then
        match matchMarker (c :: cs) with
        | some (m, rest) => m :: scanMarkersAux fuel false rest
        | none => scanMarkersAux fuel (isLineTerminator c) cs
      else scanMarkersAux fuel (isLineTerminator c) cs

/-- All silence markers of a diagnostic text, in file order. -/
def silenceMarkersOf (output : List Char) : List (Bool × ℚ) :=
  scanMarkersAux (output.length + 1) true output

/-- The pairing loop of `getSilentPeriodListFromSilenceDetectOutput`
(lines 167–187): `startPosition` holds the pending unmatched `silence_start`;
a pair is pushed when its `silence_end` arrives; a trailing unmatched start
is dropped when the marker list ends. -/
def pairSilenceMarkers (output : String) :
    Option ℚ → List (ℚ × ℚ) → List (Bool × ℚ) → Except String (List (ℚ × ℚ))
  | _, periodList, [] => .ok periodList
  | none, periodList, (ty, position) :: rest =>
      if ty then pairSilenceMarkers output (some position) periodList rest
      else .error ("Unexpected period end: " ++ output)
  | some startPosition, periodList, (ty, position) :: rest =>
      if ty then .error ("Unexpected period start: " ++ output)
      else pairSilenceMarkers output none (periodList ++ [(startPosition, position)]) rest

def getSilentPeriodListFromSilenceDetectOutput (output : String) :
    Except String (List (ℚ × ℚ)) :=
  pairSilenceMarkers output none [] (silenceMarkersOf output.toList)

/-- Strict alternation of marker types starting from expectation
`expectStart`: the marker shape `(start end)* start?` when started with
`true`. -/
def altOkFrom : Bool → List (Bool × ℚ) → Bool
  | _, [] => true
  | expectStart, (ty, _) :: rest => (ty == expectStart) && altOkFrom (!expectStart) rest

/-- The marker sequence of a balanced list of intervals:
`start a₁, end b₁, start a₂, end b₂, …`. -/
def markersOfPairs (ps : List (ℚ × ℚ)) : List (Bool × ℚ) :=
  (ps.map fun p => [(true, p.1), (false, p.2)]).flatten

/-! ### Synthetic diagnostic text (for the round-trip claim C6) -/

def digitChar (d : Nat) : Char := Char.ofNat (48 + d)

/-- Big-endian decimal digit characters of `n` (empty for `0`). -/
def natDigits (n : Nat) : List Char := ((Nat.digits 10 n).map digitChar).reverse

/-- Decimal numeral denoting `n / 10^k`: the digits of `n` with a point
inserted `k` places from the right (plain integer numeral when `k = 0`),
zero-padded as needed. -/
def renderDecimal (n k : Nat) : List Char :=
  if k = 0 then (if n = 0 then [digitChar 0] else natDigits n)
  else
    (if n / 10 ^ k = 0 then [digitChar 0] else natDigits (n / 10 ^ k)) ++
      '.' :: (List.replicate (k - (natDigits (n % 10 ^ k)).length) (digitChar 0) ++
        natDigits (n % 10 ^ k))

/-- The rational value denoted by the decimal representation `(n, k)`. -/
def decValue (nk : Nat × Nat) : ℚ := (nk.1 : ℚ) / (10 : ℚ) ^ nk.2

/-- One synthetic marker line in the shape ffmpeg's silencedetect filter
emits. -/
def silenceMarkerLine (ty : Bool) (nk : Nat × Nat) : List Char :=
  "[silencedetect @ 0x0] silence_".toList ++
    (if ty then "start".toList else "end".toList) ++
    ':' :: ' ' :: renderDecimal nk.1 nk.2

/-- JavaScript's `Array.prototype.join(sep)`. -/
def joinWith (sep : List Char) : List (List Char) → List Char
  | [] => []
  | [line] => line
  | line :: rest => line ++ sep ++ joinWith sep rest

/-- Synthetic diagnostic text: one `silence_start` line and one
`silence_end` line per interval (each timestamp given by a decimal
representation `(n, k)` denoting `n / 10^k`), joined by newlines. -/
def renderSilenceDetectOutput (l : List ((Nat × Nat) × (Nat × Nat))) : String :=
  String.mk (joinWith ['\n']
    ((l.map fun p => [silenceMarkerLine true p.1, silenceMarkerLine false p.2]).flatten))

/-! ### Concat listing file (src/index.js lines 105–110) -/

def squote : Char := Char.ofNat 39

def backslashChar : Char := Char.ofNat 92

/-- Model of the replace call on the chunk path (line 108): the regex
pattern there has no global flag, so only the FIRST single quote is replaced
by the sequence quote-backslash-quote-quote. -/
def replaceFirstQuote : List Char → List Char
  | [] => []
  | c :: rest =>
      if c = squote then squote :: backslashChar :: squote :: squote :: rest
      else c :: replaceFirstQuote rest

def concatFileLine (filePath : List Char) : List Char :=
  "file ".toList ++ squote :: (replaceFirstQuote filePath ++ [squote])

/-- The listing-file content: one `file '<escaped>'` line per chunk path,
joined by newlines. -/
def concatFileContent (paths : List (List Char)) : List Char :=
  joinWith ['\n'] (paths.map concatFileLine)

/-- Modelled from the spec (§6 listing file format): one line per chunk with
EVERY single-quote character in the path escaped by the sequence
quote-backslash-quote-quote — the concat-demuxer escaping convention the
source comment cites. -/
def replaceAllQuotes : List Char → List Char
  | [] => []
  | c :: rest =>
      if c = squote then squote :: backslashChar :: squote :: squote :: replaceAllQuotes rest
      else c :: replaceAllQuotes rest

def concatFileContentSpec (paths : List (List Char)) : List Char :=
  joinWith ['\n'] (paths.map fun filePath =>
    "file ".toList ++ squote :: (replaceAllQuotes filePath ++ [squote]))

/-! ### Post-planning effect sequence (src/index.js lines 95–115)

Everything after `adjustNotSilentPeriodList` is subprocess and filesystem
work; we record it as a trace of effects.  The chunk file name (string
rendering of the interval boundaries, line 100) is abstracted as
`chunkPathOf`. -/

inductive RenderEffect where
  | mkdirp (dir : String)
  | extractChunk (videoPath : String) (startPosition endPosition : ℚ)
      (chunkPath : List Char)
  | outputFile (path : String) (content : List Char)
  | concatCopyTo (outputVideoPath : String)
  | removeDir (dir : String)

/-- The effect trace of lines 95–115: nothing at all when the adjusted keep
list is empty; otherwise make the temp dir, extract one chunk per keep
interval in order, write the listing file, concatenate, and remove the temp
dir.  The function totalizes normally in both cases — an empty plan is not an
error. -/
def renderPlanEffects (videoPath outputVideoPath chunkedVideoDirname : String)
    (chunkPathOf : ℚ × ℚ → List Char)
    (notSilentPeriodList : List (ℚ × ℚ)) : List RenderEffect :=
  if notSilentPeriodList.length > 0 then
    RenderEffect.mkdirp chunkedVideoDirname ::
      ((notSilentPeriodList.map fun p =>
          RenderEffect.extractChunk videoPath p.1 p.2 (chunkPathOf p)) ++
        [RenderEffect.outputFile (chunkedVideoDirname ++ "/filelist.txt")
            (concatFileContent (notSilentPeriodList.map chunkPathOf)),
         RenderEffect.concatCopyTo outputVideoPath,
         RenderEffect.removeDir chunkedVideoDirname])
  else []

/-! ### CLI dispatcher (src/index.js lines 14–25) -/

inductive MainAction where
  | fileMode (args : List String)
  | dirMode (args : List String)

def unknownModeWarning (mode : String) : String :=
  "Unknown mode, fallback file mode: " ++ mode

/-- The dispatcher: `file` and `dir` run the respective operation on the
remaining arguments; any other mode logs a warning and re-invokes `main`
with mode `file` and the FULL original argument list (`...arguments`
includes the unrecognized mode token).  Returns the warnings logged and the
operation performed. -/
def main (mode : String) (args : List String) : List String × MainAction :=
  if _h1 : mode = "file" then ([], MainAction.fileMode args)
  else if _h2 : mode = "dir" then ([], MainAction.dirMode args)
  else
    let r := main "file" (mode :: args)
    (unknownModeWarning mode :: r.1, r.2)
termination_by (if mode = "file" then 0 else 1 : Nat)
decreasing_by
  simp [_h1]

/-! ## Theorems -/

/-! ### C2: the planner is the cursor algorithm -/

theorem foldl_notSilentStep_eq (minKeep videoDuration : ℚ) :
    ∀ (l : List (ℚ × ℚ)) (acc : List (ℚ × ℚ)) (c : ℚ),
      (let st := l.foldl (notSilentStep minKeep) (acc, c)
       if videoDuration - st.2 > minKeep then st.1 ++ [(st.2, videoDuration)] else st.1)
        = acc ++ planKeepsFrom minKeep c videoDuration l := by
  intro l
  induction l with
  | nil =>
      intro acc c
      simp only [List.foldl_nil, planKeepsFrom]
      split <;> simp
  | cons p rest ih =>
      intro acc c
      simp only [List.foldl_cons, planKeepsFrom, notSilentStep]
      by_cases h : p.1 - c > minKeep
      · simpa [h, List.append_assoc] using ih (acc ++ [(c, p.1)]) p.2
      · simpa [h] using ih acc p.2

theorem notSilentPeriodListOf_eq_planKeepsFrom (minKeep videoDuration : ℚ)
    (silentPeriodList : List (ℚ × ℚ)) :
    notSilentPeriodListOf minKeep videoDuration silentPeriodList
      = planKeepsFrom minKeep 0 videoDuration silentPeriodList := by
  simpa [notSilentPeriodListOf] using
    foldl_notSilentStep_eq minKeep videoDuration silentPeriodList [] 0

/-- Claim C2. The planner's fold (the mutable loop of lines 81–91) agrees with
the spec's cursor algorithm everywhere, and on the spec's worked example —
`minKeepDuration = 1`, silences `[(2,3)]`, duration `10` — it produces
exactly `[(0,2),(3,10)]` before padding. -/
theorem planner_follows_cursor_algorithm :
    (∀ (minKeep videoDuration : ℚ) (silentPeriodList : List (ℚ × ℚ)),
        notSilentPeriodListOf minKeep videoDuration silentPeriodList
          = planKeepsFrom minKeep 0 videoDuration silentPeriodList) ∧
      notSilentPeriodListOf 1 10 [(2, 3)] = [(0, 2), (3, 10)] := by
  refine ⟨notSilentPeriodListOf_eq_planKeepsFrom, ?_⟩
  norm_num [notSilentPeriodListOf, notSilentStep]

/-! ### C1: order, disjointness, and the union identity -/

theorem memberHO_nil (x : ℚ) : memberHO [] x ↔ False := by simp [memberHO]

theorem memberHO_cons {q : ℚ × ℚ} {l : List (ℚ × ℚ)} {x : ℚ} :
    memberHO (q :: l) x ↔ (q.1 ≤ x ∧ x < q.2) ∨ memberHO l x := by
  simp [memberHO, List.mem_cons, or_and_right, exists_or]

theorem memberHO_append {a b : List (ℚ × ℚ)} {x : ℚ} :
    memberHO (a ++ b) x ↔ memberHO a x ∨ memberHO b x := by
  simp [memberHO, List.mem_append, or_and_right, exists_or]

theorem SilOK.le {videoDuration : ℚ} :
    ∀ {l : List (ℚ × ℚ)} {c : ℚ}, SilOK c videoDuration l → c ≤ videoDuration
  | [], _, h => h
  | _ :: _, _, h => h.1.trans (h.2.1.trans h.2.2.le)

theorem SilOK.mem_bounds {videoDuration : ℚ} :
    ∀ {l : List (ℚ × ℚ)} {c : ℚ}, SilOK c videoDuration l →
      ∀ p ∈ l, c ≤ p.1 ∧ p.1 ≤ p.2 ∧ p.2 ≤ videoDuration := by
  intro l
  induction l with
  | nil => intro c _ p hp; cases hp
  | cons q rest ih =>
      intro c h p hp
      rcases List.mem_cons.mp hp with rfl | hp
      · exact ⟨h.1, h.2.1, h.2.2.le⟩
      · obtain ⟨h1, h2, h3⟩ := ih h.2.2 p hp
        exact ⟨h.1.trans (h.2.1.trans h1), h2, h3⟩

theorem planKeepsFrom_bounds {minKeep videoDuration : ℚ} :
    ∀ {l : List (ℚ × ℚ)} {c : ℚ}, SilOK c videoDuration l →
      ∀ p ∈ planKeepsFrom minKeep c videoDuration l,
        c ≤ p.1 ∧ p.1 ≤ p.2 ∧ p.2 ≤ videoDuration := by
  intro l
  induction l with
  | nil =>
      intro c h p hp
      simp only [planKeepsFrom] at hp
      split at hp
      · rcases List.mem_singleton.mp hp with rfl
        exact ⟨le_refl _, h, le_refl _⟩
      · cases hp
  | cons q rest ih =>
      intro c h p hp
      simp only [planKeepsFrom, List.mem_append] at hp
      rcases hp with hp | hp
      · split at hp
        · rcases List.mem_singleton.mp hp with rfl
          exact ⟨le_refl _, h.1, h.2.1.trans h.2.2.le⟩
        · cases hp
      · obtain ⟨h1, h2, h3⟩ := ih h.2.2 p hp
        exact ⟨h.1.trans (h.2.1.trans h1), h2, h3⟩

theorem gapSpansFrom_bounds {videoDuration : ℚ} :
    ∀ {l : List (ℚ × ℚ)} {c : ℚ}, SilOK c videoDuration l →
      ∀ p ∈ gapSpansFrom c videoDuration l,
        c ≤ p.1 ∧ p.1 ≤ p.2 ∧ p.2 ≤ videoDuration := by
  intro l
  induction l with
  | nil =>
      intro c h p hp
      rcases List.mem_singleton.mp hp with rfl
      exact ⟨le_refl _, h, le_refl _⟩
  | cons q rest ih =>
      intro c h p hp
      rcases List.mem_cons.mp hp with rfl | hp
      · exact ⟨le_refl _, h.1, h.2.1.trans h.2.2.le⟩
      · obtain ⟨h1, h2, h3⟩ := ih h.2.2 p hp
        exact ⟨h.1.trans (h.2.1.trans h1), h2, h3⟩

theorem planKeepsFrom_chain {minKeep videoDuration : ℚ} :
    ∀ {l : List (ℚ × ℚ)} {c : ℚ}, SilOK c videoDuration l →
      List.Chain' (fun p q : ℚ × ℚ => p.2 ≤ q.1)
        (planKeepsFrom minKeep c videoDuration l) := by
  intro l
  induction l with
  | nil =>
      intro c _
      simp only [planKeepsFrom]
      split
      · exact List.chain'_singleton _
      · exact List.chain'_nil
  | cons q rest ih =>
      intro c h
      simp only [planKeepsFrom]
      split
      · rw [List.singleton_append, List.chain'_cons']
        refine ⟨?_, ih h.2.2⟩
        intro y hy
        have hmem : y ∈ planKeepsFrom minKeep q.2 videoDuration rest :=
          List.mem_of_mem_head? hy
        exact h.2.1.trans (planKeepsFrom_bounds h.2.2 y hmem).1
      · rw [List.nil_append]
        exact ih h.2.2

/-- Pointwise form of the (amended) union identity: with all spans half-open,
the kept gaps together with the silences cover exactly `[c, D)` minus the
gaps of length at most `minKeep`. -/
theorem memberHO_planKeeps_union (minKeep videoDuration : ℚ) :
    ∀ (l : List (ℚ × ℚ)) (c : ℚ), SilOK c videoDuration l → ∀ x : ℚ,
      (memberHO (planKeepsFrom minKeep c videoDuration l) x ∨ memberHO l x
        ↔ c ≤ x ∧ x < videoDuration ∧
            ¬ memberHO ((gapSpansFrom c videoDuration l).filter
                fun p => decide (p.2 - p.1 ≤ minKeep)) x) := by
  intro l
  induction l with
  | nil =>
      intro c h x
      simp only [planKeepsFrom, gapSpansFrom, List.filter_cons, List.filter_nil,
        decide_eq_true_eq]
      by_cases hk : videoDuration - c > minKeep
      · have hfilter : ¬ (videoDuration - c ≤ minKeep) := not_le.mpr hk
        rw [if_pos hk, if_neg hfilter]
        simp only [memberHO_cons, memberHO_nil]
        tauto
      · have hfilter : videoDuration - c ≤ minKeep := not_lt.mp hk
        rw [if_neg hk, if_pos hfilter]
        simp only [memberHO_cons, memberHO_nil]
        tauto
  | cons q rest ih =>
      intro c h x
      obtain ⟨h1, h2, h3⟩ := h
      have hqD : q.2 ≤ videoDuration := h3.le
      have htail := ih q.2 h3 x
      simp only [planKeepsFrom, gapSpansFrom, memberHO_append, memberHO_cons,
        List.filter_cons, decide_eq_true_eq]
      rcases le_or_lt q.2 x with hx | hx
      · -- x at or past the end of the first silence: only the tail matters
        have hcx : c ≤ x := h1.trans (h2.trans hx)
        have hfirstkeep : ¬ (x < q.1) := not_lt.mpr (h2.trans hx)
        have hsil : ¬ (x < q.2) := not_lt.mpr hx
        by_cases hkept : q.1 - c > minKeep
        · have hc : ¬ (q.1 - c ≤ minKeep) := not_le.mpr hkept
          rw [if_pos hkept, if_neg hc]
          simp only [memberHO_cons, memberHO_nil]
          tauto
        · have hc : q.1 - c ≤ minKeep := not_lt.mp hkept
          rw [if_neg hkept, if_pos hc]
          simp only [memberHO_cons, memberHO_nil]
          tauto
      · -- x strictly before the end of the first silence: the tail is inert
        have hnotplan : ¬ memberHO (planKeepsFrom minKeep q.2 videoDuration rest) x := by
          rintro ⟨p, hp, hpx, -⟩
          exact absurd ((planKeepsFrom_bounds h3 p hp).1.trans hpx) (not_le.mpr hx)
        have hnotrest : ¬ memberHO rest x := by
          rintro ⟨p, hp, hpx, -⟩
          exact absurd ((SilOK.mem_bounds h3 p hp).1.trans hpx) (not_le.mpr hx)
        have hnotgaptail :
            ¬ memberHO ((gapSpansFrom q.2 videoDuration rest).filter
                fun p => decide (p.2 - p.1 ≤ minKeep)) x := by
          rintro ⟨p, hp, hpx, -⟩
          have hpg := List.mem_of_mem_filter hp
          exact absurd ((gapSpansFrom_bounds h3 p hpg).1.trans hpx) (not_le.mpr hx)
        have hxD : x < videoDuration := lt_of_lt_of_le hx hqD
        rcases le_or_lt q.1 x with hxq | hxq
        · -- inside the first silence
          have hcx : c ≤ x := h1.trans hxq
          have hnlt : ¬ (x < q.1) := not_lt.mpr hxq
          by_cases hkept : q.1 - c > minKeep
          · have hc : ¬ (q.1 - c ≤ minKeep) := not_le.mpr hkept
            rw [if_pos hkept, if_neg hc]
            simp only [memberHO_cons, memberHO_nil, or_false, false_or]
            constructor
            · intro _
              exact ⟨hcx, hxD, hnotgaptail⟩
            · intro _
              exact Or.inr (Or.inl ⟨hxq, hx⟩)
          · have hc : q.1 - c ≤ minKeep := not_lt.mp hkept
            rw [if_neg hkept, if_pos hc]
            simp only [memberHO_cons, memberHO_nil, or_false, false_or]
            constructor
            · intro _
              refine ⟨hcx, hxD, ?_⟩
              rintro (⟨-, hlt⟩ | hm)
              · exact hnlt hlt
              · exact hnotgaptail hm
            · intro _
              exact Or.inr (Or.inl ⟨hxq, hx⟩)
        · -- inside the first gap
          have hnosil : ¬ (q.1 ≤ x) := not_le.mpr hxq
          have hxD' : x < videoDuration :=
            lt_of_lt_of_le hxq (h2.trans hqD)
          by_cases hkept : q.1 - c > minKeep
          · have hc : ¬ (q.1 - c ≤ minKeep) := not_le.mpr hkept
            rw [if_pos hkept, if_neg hc]
            simp only [memberHO_cons, memberHO_nil, or_false, false_or]
            constructor
            · rintro ((⟨hcx, -⟩ | hp) | (⟨hq1x, -⟩ | hr))
              · exact ⟨hcx, hxD', hnotgaptail⟩
              · exact absurd hp hnotplan
              · exact absurd hq1x hnosil
              · exact absurd hr hnotrest
            · rintro ⟨hcx, -, -⟩
              exact Or.inl (Or.inl ⟨hcx, hxq⟩)
          · have hc : q.1 - c ≤ minKeep := not_lt.mp hkept
            rw [if_neg hkept, if_pos hc]
            simp only [memberHO_cons, memberHO_nil, or_false, false_or]
            constructor
            · rintro (hp | (⟨hq1x, -⟩ | hr))
              · exact absurd hp hnotplan
              · exact absurd hq1x hnosil
              · exact absurd hr hnotrest
            · rintro ⟨hcx, -, hgap⟩
              exact absurd (Or.inl ⟨hcx, hxq⟩) hgap

/-- Claim C1 (amended). For every non-overlapping, time-sorted silence list that
lies within `[0, D]` and every minimum-keep threshold, the planner's
pre-padding keep list is in non-decreasing time order and non-overlapping,
and — reading every span half-open — the union of the keep spans plus the
union of the silence spans equals `[0, D)` minus the gap spans of length
**at most** `minKeepDuration` (the code drops a gap exactly when its length
is `≤ minKeepDuration`, not `< minKeepDuration` as the claim states). -/
theorem planner_sorted_nonoverlapping_union (minKeep videoDuration : ℚ)
    (silentPeriodList : List (ℚ × ℚ))
    (h : SilOK 0 videoDuration silentPeriodList) :
    (∀ p ∈ notSilentPeriodListOf minKeep videoDuration silentPeriodList, p.1 ≤ p.2) ∧
      List.Chain' (fun p q : ℚ × ℚ => p.2 ≤ q.1)
        (notSilentPeriodListOf minKeep videoDuration silentPeriodList) ∧
      ∀ x : ℚ,
        (memberHO (notSilentPeriodListOf minKeep videoDuration silentPeriodList) x
            ∨ memberHO silentPeriodList x)
          ↔ 0 ≤ x ∧ x < videoDuration ∧
              ¬ memberHO ((gapSpansFrom 0 videoDuration silentPeriodList).filter
                  fun p => decide (p.2 - p.1 ≤ minKeep)) x := by
  rw [notSilentPeriodListOf_eq_planKeepsFrom]
  exact ⟨fun p hp => (planKeepsFrom_bounds h p hp).2.1,
    planKeepsFrom_chain h,
    memberHO_planKeeps_union minKeep videoDuration silentPeriodList 0 h⟩

/-- Witness for C1: at `minKeep = 1`, `D = 10`, silences `[(2,3)]`, the time
`x = 5` lies in the planned keep/silence union, as the union identity demands. -/
theorem planner_sorted_nonoverlapping_union_witness :
    memberHO (notSilentPeriodListOf 1 10 [(2, 3)]) 5 ∨ memberHO [((2 : ℚ), 3)] 5 := by
  have h := (planner_sorted_nonoverlapping_union 1 10 [(2, 3)]
    (by norm_num [SilOK])).2.2 5
  refine h.mpr ⟨by norm_num, by norm_num, ?_⟩
  norm_num [gapSpansFrom, memberHO, List.filter_cons]

/-- Claim C1, as stated, is false: with `minKeep = 1`, silences `[(2,3)]` and
duration `4`, the final gap `[3,4)` has length exactly `1`; the code drops it
(the keep test is strictly `>`), yet it is not "shorter than
`minKeepDuration`", so `x = 7/2` belongs to `[0,4)` minus the gaps shorter
than `1` but to neither a keep span nor a silence span. -/
theorem planner_union_strict_counterexample :
    ¬ ((∀ p ∈ notSilentPeriodListOf 1 4 [((2 : ℚ), 3)], p.1 ≤ p.2) ∧
        List.Chain' (fun p q : ℚ × ℚ => p.2 ≤ q.1)
          (notSilentPeriodListOf 1 4 [((2 : ℚ), 3)]) ∧
        ∀ x : ℚ,
          (memberHO (notSilentPeriodListOf 1 4 [((2 : ℚ), 3)]) x
              ∨ memberHO [((2 : ℚ), 3)] x)
            ↔ 0 ≤ x ∧ x < 4 ∧
                ¬ memberHO ((gapSpansFrom 0 4 [((2 : ℚ), 3)]).filter
                    fun p => decide (p.2 - p.1 < 1)) x) := by
  rintro ⟨-, -, hU⟩
  have hmem := (hU (7 / 2)).mpr
    ⟨by norm_num, by norm_num, by norm_num [gapSpansFrom, memberHO, List.filter_cons]⟩
  revert hmem
  norm_num [notSilentPeriodListOf, notSilentStep, memberHO]

/-! ### C3: the padding pass -/

/-- Claim C3. The padding pass preserves length, and the interval at index `i`
has its start shifted earlier by `paddingDuration / 2` unless `i = 0` and its
end shifted later by `paddingDuration / 2` unless `i = n - 1`; all other
boundary values are the input values shifted by exactly that amount. -/
theorem adjust_pads_all_but_first_and_last (remaining : ℚ) (l : List (ℚ × ℚ)) :
    (adjustNotSilentPeriodList remaining l).length = l.length ∧
      ∀ i, i < l.length →
        (adjustNotSilentPeriodList remaining l).getD i (0, 0) =
          ((if i = 0 then (l.getD i (0, 0)).1
            else (l.getD i (0, 0)).1 - remaining / 2),
           (if i = l.length - 1 then (l.getD i (0, 0)).2
            else (l.getD i (0, 0)).2 + remaining / 2)) := by
  constructor
  · simp [adjustNotSilentPeriodList]
  · intro i hi
    simp [adjustNotSilentPeriodList, List.getD_eq_getElem?_getD, List.getElem?_map,
      List.getElem?_range, hi]

/-- Witness for C3 at the middle interval of a three-interval list with the
program's padding constant `2/5`: both boundaries move by `1/5`. -/
theorem adjust_pads_all_but_first_and_last_witness :
    (1 : Nat) < 3 ∧
      (adjustNotSilentPeriodList (2 / 5) [(0, 1), (2, 3), (4, 9)]).getD 1 (0, 0)
        = (2 - 1 / 5, 3 + 1 / 5) := by
  refine ⟨by norm_num, ?_⟩
  have h := (adjust_pads_all_but_first_and_last (2 / 5)
    [(0, 1), (2, 3), (4, 9)]).2 1 (by norm_num)
  rw [h]
  norm_num [List.getD]

/-! ### C8: an empty plan does no work -/

/-- Claim C8. If the planner emits zero keep intervals, the post-planning phase
performs no effect at all — no temp directory, no extraction, no listing
file, no concatenation, no output file — and returns normally (the model has
no failure outcome here: the source merely skips the guarded block). -/
theorem empty_plan_no_effects (videoPath outputVideoPath chunkedVideoDirname : String)
    (chunkPathOf : ℚ × ℚ → List Char) (minKeep remaining videoDuration : ℚ)
    (silentPeriodList : List (ℚ × ℚ))
    (h : notSilentPeriodListOf minKeep videoDuration silentPeriodList = []) :
    renderPlanEffects videoPath outputVideoPath chunkedVideoDirname chunkPathOf
      (adjustNotSilentPeriodList remaining
        (notSilentPeriodListOf minKeep videoDuration silentPeriodList)) = [] := by
  rw [h]
  simp [adjustNotSilentPeriodList, renderPlanEffects]

/-- Witness for C8: one silence covering all of `[0,10]` leaves no gap above
the threshold, so the planner is empty and the effect trace is empty. -/
theorem empty_plan_no_effects_witness :
    notSilentPeriodListOf 1 10 [((0 : ℚ), 10)] = [] ∧
      renderPlanEffects "in.mp4" "out.mp4" "out.mp4.tmp" (fun _ => [])
        (adjustNotSilentPeriodList (2 / 5)
          (notSilentPeriodListOf 1 10 [((0 : ℚ), 10)])) = [] := by
  refine ⟨by norm_num [notSilentPeriodListOf, notSilentStep], ?_⟩
  exact empty_plan_no_effects "in.mp4" "out.mp4" "out.mp4.tmp" (fun _ => []) 1 (2 / 5) 10
    [((0 : ℚ), 10)] (by norm_num [notSilentPeriodListOf, notSilentStep])

/-! ### C9: unknown mode falls back to file mode -/

/-- Claim C9. For any mode other than `file` and `dir`, the dispatcher logs the
unknown-mode warning and performs the file-mode operation on the original
full argument list, so the unrecognized mode token becomes the first
argument (the input path). -/
theorem unknown_mode_fallback (mode : String) (args : List String)
    (h1 : mode ≠ "file") (h2 : mode ≠ "dir") :
    main mode args
      = ([unknownModeWarning mode], MainAction.fileMode (mode :: args)) := by
  rw [main, dif_neg h1, dif_neg h2, main]
  simp

/-- Witness for C9 at the mode token `bogus`. -/
theorem unknown_mode_fallback_witness :
    main "bogus" ["input.mp4"]
      = ([unknownModeWarning "bogus"], MainAction.fileMode ["bogus", "input.mp4"]) :=
  unknown_mode_fallback "bogus" ["input.mp4"] (by decide) (by decide)

/-! ### C4 and C5: the marker-pairing state machine -/

/-- The pairing loop succeeds exactly on marker sequences that alternate
correctly from the current expectation (a trailing unmatched `start` being
allowed). -/
theorem pairSilenceMarkers_isOk (output : String) :
    ∀ (markers : List (Bool × ℚ)) (st : Option ℚ) (acc : List (ℚ × ℚ)),
      (pairSilenceMarkers output st acc markers).isOk = altOkFrom st.isNone markers := by
  intro markers
  induction markers with
  | nil =>
      intro st acc
      cases st <;> simp [pairSilenceMarkers, altOkFrom, Except.isOk, Except.toBool]
  | cons m rest ih =>
      intro st acc
      obtain ⟨ty, pos⟩ := m
      cases st with
      | none =>
          cases ty
          · simp [pairSilenceMarkers, altOkFrom, Except.isOk, Except.toBool]
          · simpa [pairSilenceMarkers, altOkFrom] using ih (some pos) acc
      | some sp =>
          cases ty
          · simpa [pairSilenceMarkers, altOkFrom] using ih none (acc ++ [(sp, pos)])
          · simp [pairSilenceMarkers, altOkFrom, Except.isOk, Except.toBool]

/-- Claim C4. If the silence markers of a diagnostic text, read in file order,
violate strict alternation — an `end` with no unmatched preceding `start`,
or a `start` while a previous `start` is unmatched — the parser fails with a
parse error. -/
theorem malformed_markers_parse_error (output : String)
    (h : altOkFrom true (silenceMarkersOf output.toList) = false) :
    ∃ msg, getSilentPeriodListFromSilenceDetectOutput output = .error msg := by
  have hok := pairSilenceMarkers_isOk output (silenceMarkersOf output.toList) none []
  rw [show (none : Option ℚ).isNone = true from rfl, h] at hok
  unfold getSilentPeriodListFromSilenceDetectOutput
  cases hres : pairSilenceMarkers output none [] (silenceMarkersOf output.toList) with
  | ok val =>
      rw [hres] at hok
      exact absurd hok (by simp [Except.isOk, Except.toBool])
  | error msg => exact ⟨msg, rfl⟩

/-- Witness for C4: a lone `silence_end` line is rejected. -/
theorem malformed_markers_parse_error_witness :
    ∃ msg, getSilentPeriodListFromSilenceDetectOutput
      "[silencedetect @ 0x0] silence_end: 5" = .error msg :=
  malformed_markers_parse_error "[silencedetect @ 0x0] silence_end: 5" (by decide)

/-- On a balanced marker sequence the loop appends exactly the paired
intervals, and a final unmatched `start` is dropped. -/
theorem pairSilenceMarkers_balanced (output : String) :
    ∀ (ps : List (ℚ × ℚ)) (acc : List (ℚ × ℚ)),
      pairSilenceMarkers output none acc (markersOfPairs ps) = .ok (acc ++ ps) ∧
        ∀ t : ℚ, pairSilenceMarkers output none acc (markersOfPairs ps ++ [(true, t)])
          = .ok (acc ++ ps) := by
  intro ps
  induction ps with
  | nil =>
      intro acc
      refine ⟨by simp [markersOfPairs, pairSilenceMarkers], ?_⟩
      intro t
      simp [markersOfPairs, pairSilenceMarkers]
  | cons p rest ih =>
      intro acc
      have hm : markersOfPairs (p :: rest)
          = (true, p.1) :: (false, p.2) :: markersOfPairs rest := by
        simp [markersOfPairs]
      constructor
      · have hstep := (ih (acc ++ [(p.1, p.2)])).1
        rw [hm]
        simp [pairSilenceMarkers, hstep, List.append_assoc]
      · intro t
        have hstep := (ih (acc ++ [(p.1, p.2)])).2 t
        rw [hm]
        simp [pairSilenceMarkers, hstep, List.append_assoc]

/-- Claim C5. If the markers alternate correctly but end with a final
`silence_start` with no matching `silence_end`, the parser succeeds and
returns exactly the intervals of the balanced prefix, emitting nothing for
the trailing unmatched start. -/
theorem trailing_start_dropped (output : String) (ps : List (ℚ × ℚ)) (t : ℚ)
    (h : silenceMarkersOf output.toList = markersOfPairs ps ++ [(true, t)]) :
    getSilentPeriodListFromSilenceDetectOutput output = .ok ps := by
  unfold getSilentPeriodListFromSilenceDetectOutput
  rw [h]
  simpa using (pairSilenceMarkers_balanced output ps []).2 t

/-- Witness for C5: one balanced pair followed by an unmatched start parses
to just the balanced pair. -/
theorem trailing_start_dropped_witness :
    getSilentPeriodListFromSilenceDetectOutput
      "[silencedetect @ 0x0] silence_start: 1\n[silencedetect @ 0x0] silence_end: 2\n[silencedetect @ 0x0] silence_start: 8"
      = .ok [(1, 2)] :=
  trailing_start_dropped _ [(1, 2)] 8 (by decide)

/-! ### C10: no detected silence keeps the whole video -/

/-- Claim C10. A diagnostic text with no silence-marker line parses to the
empty interval list without error; for every duration above the keep
threshold the planner then emits the single keep interval `(0, D)`, and the
padding pass leaves that sole interval unchanged. -/
theorem no_silence_keeps_whole_video (output : String)
    (hmk : silenceMarkersOf output.toList = [])
    (minKeep remaining videoDuration : ℚ)
    (hD : videoDuration > minKeep) :
    getSilentPeriodListFromSilenceDetectOutput output = .ok [] ∧
      notSilentPeriodListOf minKeep videoDuration [] = [(0, videoDuration)] ∧
      adjustNotSilentPeriodList remaining [(0, videoDuration)]
        = [(0, videoDuration)] := by
  refine ⟨?_, ?_, ?_⟩
  · unfold getSilentPeriodListFromSilenceDetectOutput
    rw [hmk]
    rfl
  · simp [notSilentPeriodListOf, hD]
  · simp [adjustNotSilentPeriodList, List.range_succ, List.getD]

/-- Witness for C10 at a two-line text with no marker and `D = 10`,
`minKeep = 1`, padding `2/5`. -/
theorem no_silence_keeps_whole_video_witness :
    getSilentPeriodListFromSilenceDetectOutput "hello\nworld" = .ok [] ∧
      notSilentPeriodListOf 1 10 [] = [(0, 10)] ∧
      adjustNotSilentPeriodList (2 / 5) [(0, 10)] = [(0, 10)] :=
  no_silence_keeps_whole_video "hello\nworld" (by decide) 1 (2 / 5) 10 (by norm_num)

/-! ### C7: the concat listing file -/

/-- Claim C7 (code bug). The listing line for a path containing two single
quotes escapes only the FIRST quote: the source calls replace with a
non-global quote pattern, so later quotes stay bare, unlike the documented
concat-demuxer format (every quote escaped) that the source comment cites.
For the path quote-separated a, b, c the produced line leaves the second
quote bare where the documented format escapes both. -/
theorem concat_listing_escapes_only_first_quote :
    concatFileContent [['a', squote, 'b', squote, 'c']]
        = "file ".toList ++
          [squote, 'a', squote, backslashChar, squote, squote, 'b', squote, 'c', squote] ∧
      concatFileContent [['a', squote, 'b', squote, 'c']]
        ≠ concatFileContentSpec [['a', squote, 'b', squote, 'c']] := by
  constructor <;> decide

/-! ### C6: render/parse round trip — digit and scanning lemmas -/

theorem digitChar_facts {d : Nat} (hd : d < 10) :
    (digitChar d).toNat = 48 + d ∧ (digitChar d).isDigit = true ∧
      isWsChar (digitChar d) = false ∧ digitChar d ≠ '\n' := by
  interval_cases d <;> exact ⟨by decide, by decide, by decide, by decide⟩

theorem digitsToNat_append (ds : List Char) (c : Char) :
    digitsToNat (ds ++ [c]) = 10 * digitsToNat ds + (c.toNat - 48) := by
  simp [digitsToNat, List.foldl_append]

theorem digitsToNat_rev_map (L : List Nat) (hL : ∀ d ∈ L, d < 10) :
    digitsToNat ((L.map digitChar).reverse) = Nat.ofDigits 10 L := by
  induction L with
  | nil => simp [digitsToNat, Nat.ofDigits]
  | cons d L ih =>
      have hd := hL d (List.mem_cons_self d L)
      have hL' : ∀ x ∈ L, x < 10 := fun x hx => hL x (List.mem_cons_of_mem _ hx)
      simp only [List.map_cons, List.reverse_cons, digitsToNat_append, ih hL',
        Nat.ofDigits_cons]
      rw [(digitChar_facts hd).1]
      omega

theorem digitsToNat_natDigits (n : Nat) : digitsToNat (natDigits n) = n := by
  rw [natDigits,
    digitsToNat_rev_map _ (fun d hd => Nat.digits_lt_base (by norm_num) hd),
    Nat.ofDigits_digits]

theorem natDigits_mem {n : Nat} {c : Char} (hc : c ∈ natDigits n) :
    ∃ d, d < 10 ∧ c = digitChar d := by
  rw [natDigits, List.mem_reverse] at hc
  obtain ⟨d, hd, rfl⟩ := List.mem_map.mp hc
  exact ⟨d, Nat.digits_lt_base (by norm_num) hd, rfl⟩

theorem natDigits_isDigit {n : Nat} : ∀ c ∈ natDigits n, c.isDigit = true := by
  intro c hc
  obtain ⟨d, hd, rfl⟩ := natDigits_mem hc
  exact (digitChar_facts hd).2.1

theorem natDigits_ne_nil {n : Nat} (hn : n ≠ 0) : natDigits n ≠ [] := by
  rw [natDigits]
  simp [Nat.digits_ne_nil_iff_ne_zero.mpr hn]

theorem natDigits_length_le {m k : Nat} (h : m < 10 ^ k) :
    (natDigits m).length ≤ k := by
  rw [natDigits, List.length_reverse, List.length_map]
  by_cases hm : m = 0
  · simp [hm]
  · by_contra hlen
    push_neg at hlen
    have h1 : 10 ^ (Nat.digits 10 m).length ≤ 10 * m :=
      Nat.base_pow_length_digits_le 10 m (by norm_num) hm
    have h2 : 10 ^ (k + 1) ≤ 10 ^ (Nat.digits 10 m).length :=
      Nat.pow_le_pow_right (by norm_num) hlen
    have h3 : (10 : ℕ) ^ (k + 1) = 10 * 10 ^ k := by ring
    omega

theorem digitsToNat_replicate_zero (z : Nat) (ds : List Char) :
    digitsToNat (List.replicate z (digitChar 0) ++ ds) = digitsToNat ds := by
  induction z with
  | zero => simp
  | succ z ih =>
      simp only [List.replicate_succ, List.cons_append, digitsToNat,
        List.foldl_cons] at ih ⊢
      rw [show 10 * 0 + ((digitChar 0).toNat - 48) = 0 from by decide]
      exact ih

theorem takeWhile_append_all {p : Char → Bool} :
    ∀ {a : List Char} (b : List Char), (∀ c ∈ a, p c = true) →
      (a ++ b).takeWhile p = a ++ b.takeWhile p := by
  intro a
  induction a with
  | nil => simp
  | cons c a ih =>
      intro b h
      rw [List.cons_append, List.takeWhile_cons_of_pos (h c (List.mem_cons_self c a)),
        ih b (fun x hx => h x (List.mem_cons_of_mem _ hx)), List.cons_append]

theorem dropWhile_append_all {p : Char → Bool} :
    ∀ {a : List Char} (b : List Char), (∀ c ∈ a, p c = true) →
      (a ++ b).dropWhile p = b.dropWhile p := by
  intro a
  induction a with
  | nil => simp
  | cons c a ih =>
      intro b h
      rw [List.cons_append, List.dropWhile_cons_of_pos (h c (List.mem_cons_self c a)),
        ih b (fun x hx => h x (List.mem_cons_of_mem _ hx))]

theorem takeWhile_all_pos {p : Char → Bool} {l : List Char}
    (h : ∀ c ∈ l, p c = true) : l.takeWhile p = l := by
  have := takeWhile_append_all (a := l) [] h
  simpa using this

theorem dropWhile_all_pos {p : Char → Bool} {l : List Char}
    (h : ∀ c ∈ l, p c = true) : l.dropWhile p = [] := by
  have := dropWhile_append_all (a := l) [] h
  simpa using this

theorem dropWhile_all_neg {p : Char → Bool} :
    ∀ {l : List Char}, (∀ c ∈ l, p c = false) → l.dropWhile p = l := by
  intro l
  induction l with
  | nil => simp
  | cons c l ih =>
      intro h
      rw [List.dropWhile_cons_of_neg (by simp [h c (List.mem_cons_self c l)])]

theorem dropPrefixChars_append :
    ∀ (pat rest : List Char), dropPrefixChars pat (pat ++ rest) = some rest := by
  intro pat
  induction pat with
  | nil => intro rest; rfl
  | cons c pat ih =>
      intro rest
      rw [List.cons_append]
      simpa [dropPrefixChars] using ih rest

theorem intDigits_isDigit (m : Nat) :
    ∀ c ∈ (if m = 0 then [digitChar 0] else natDigits m), c.isDigit = true := by
  split
  · intro c hc
    rcases List.mem_singleton.mp hc with rfl
    decide
  · exact natDigits_isDigit

theorem intDigits_ne_nil (m : Nat) :
    (if m = 0 then [digitChar 0] else natDigits m) ≠ [] := by
  split
  · simp
  · exact natDigits_ne_nil (by assumption)

theorem digitsToNat_intDigits (m : Nat) :
    digitsToNat (if m = 0 then [digitChar 0] else natDigits m) = m := by
  split
  · subst m; decide
  · exact digitsToNat_natDigits m

theorem renderDecimal_mem {n k : Nat} {c : Char} (hc : c ∈ renderDecimal n k) :
    (∃ d, d < 10 ∧ c = digitChar d) ∨ c = '.' := by
  rw [renderDecimal] at hc
  split at hc
  · split at hc
    · rcases List.mem_singleton.mp hc with rfl
      exact Or.inl ⟨0, by norm_num, rfl⟩
    · exact Or.inl (natDigits_mem hc)
  · rcases List.mem_append.mp hc with hc | hc
    · split at hc
      · rcases List.mem_singleton.mp hc with rfl
        exact Or.inl ⟨0, by norm_num, rfl⟩
      · exact Or.inl (natDigits_mem hc)
    · rcases List.mem_cons.mp hc with rfl | hc
      · exact Or.inr rfl
      · rcases List.mem_append.mp hc with hc | hc
        · rcases List.eq_of_mem_replicate hc with rfl
          exact Or.inl ⟨0, by norm_num, rfl⟩
        · exact Or.inl (natDigits_mem hc)

theorem renderDecimal_not_ws (n k : Nat) :
    ∀ c ∈ renderDecimal n k, isWsChar c = false := by
  intro c hc
  rcases renderDecimal_mem hc with ⟨d, hd, rfl⟩ | rfl
  · exact (digitChar_facts hd).2.2.1
  · decide

theorem renderDecimal_no_newline (n k : Nat) :
    ∀ c ∈ renderDecimal n k, c ≠ '\n' := by
  intro c hc
  rcases renderDecimal_mem hc with ⟨d, hd, rfl⟩ | rfl
  · exact (digitChar_facts hd).2.2.2
  · decide

theorem renderDecimal_ne_nil (n k : Nat) : renderDecimal n k ≠ [] := by
  rw [renderDecimal]
  split
  · split
    · simp
    · exact natDigits_ne_nil (by assumption)
  · intro h
    simpa using congrArg List.length h

theorem dropWhile_append_of_ne_nil {p : Char → Bool} {a : List Char} (b : List Char)
    (ha : a ≠ []) (h : ∀ c ∈ a, p c = false) : (a ++ b).dropWhile p = a ++ b := by
  cases a with
  | nil => exact absurd rfl ha
  | cons c t =>
      rw [List.cons_append,
        List.dropWhile_cons_of_neg (by simp [h c (List.mem_cons_self c t)])]

theorem takeWhile_boundary {rest : List Char}
    (hb : ∀ c ∈ rest.head?, c.isDigit = false ∧ c ≠ '.') :
    rest.takeWhile Char.isDigit = [] := by
  cases rest with
  | nil => rfl
  | cons c t =>
      rw [List.takeWhile_cons_of_neg (by simp [(hb c (by simp)).1])]

theorem dropWhile_boundary {rest : List Char}
    (hb : ∀ c ∈ rest.head?, c.isDigit = false ∧ c ≠ '.') :
    rest.dropWhile Char.isDigit = rest := by
  cases rest with
  | nil => rfl
  | cons c t =>
      rw [List.dropWhile_cons_of_neg (by simp [(hb c (by simp)).1])]

theorem parseNumber_renderDecimal (n k : Nat) (rest : List Char)
    (hb : ∀ c ∈ rest.head?, c.isDigit = false ∧ c ≠ '.') :
    parseNumber (renderDecimal n k ++ rest) = some (decValue (n, k), rest) := by
  by_cases hk : k = 0
  · subst hk
    rw [renderDecimal, if_pos rfl]
    have hdig := intDigits_isDigit n
    have htw : ((if n = 0 then [digitChar 0] else natDigits n) ++ rest).takeWhile
        Char.isDigit = (if n = 0 then [digitChar 0] else natDigits n) := by
      rw [takeWhile_append_all _ hdig, takeWhile_boundary hb, List.append_nil]
    have hdw : ((if n = 0 then [digitChar 0] else natDigits n) ++ rest).dropWhile
        Char.isDigit = rest := by
      rw [dropWhile_append_all _ hdig, dropWhile_boundary hb]
    have hne : (if n = 0 then [digitChar 0] else natDigits n).isEmpty = false := by
      simpa [List.isEmpty_iff] using intDigits_ne_nil n
    rw [parseNumber]
    simp only [htw, hdw, hne, Bool.false_eq_true, if_false]
    cases rest with
    | nil =>
        rw [digitsToNat_intDigits]
        simp [decValue]
    | cons c t =>
        rw [digitsToNat_intDigits]
        simp [decValue, (hb c (by simp)).2]
  · rw [renderDecimal, if_neg hk]
    simp only [List.append_assoc, List.cons_append]
    have hmod : n % 10 ^ k < 10 ^ k := Nat.mod_lt _ (Nat.pos_pow_of_pos k (by norm_num))
    have hlenle : (natDigits (n % 10 ^ k)).length ≤ k := natDigits_length_le hmod
    have hAdig := intDigits_isDigit (n / 10 ^ k)
    have hAne : (if n / 10 ^ k = 0 then [digitChar 0] else natDigits (n / 10 ^ k)).isEmpty
        = false := by
      simpa [List.isEmpty_iff] using intDigits_ne_nil (n / 10 ^ k)
    have hF0 : ∀ c ∈ List.replicate (k - (natDigits (n % 10 ^ k)).length)
        (digitChar 0) ++ natDigits (n % 10 ^ k), c.isDigit = true := by
      intro c hc
      rcases List.mem_append.mp hc with hc | hc
      · rcases List.eq_of_mem_replicate hc with rfl
        decide
      · exact natDigits_isDigit c hc
    have hFlen : (List.replicate (k - (natDigits (n % 10 ^ k)).length)
        (digitChar 0) ++ natDigits (n % 10 ^ k)).length = k := by
      simp only [List.length_append, List.length_replicate]
      omega
    have hfs : (List.replicate (k - (natDigits (n % 10 ^ k)).length)
        (digitChar 0) ++ (natDigits (n % 10 ^ k) ++ rest)).takeWhile Char.isDigit
        = List.replicate (k - (natDigits (n % 10 ^ k)).length)
            (digitChar 0) ++ natDigits (n % 10 ^ k) := by
      rw [← List.append_assoc, takeWhile_append_all _ hF0, takeWhile_boundary hb,
        List.append_nil]
    have hFne : (List.replicate (k - (natDigits (n % 10 ^ k)).length)
        (digitChar 0) ++ natDigits (n % 10 ^ k)).isEmpty = false := by
      have hne : (List.replicate (k - (natDigits (n % 10 ^ k)).length)
          (digitChar 0) ++ natDigits (n % 10 ^ k)) ≠ [] := by
        intro hnil
        rw [hnil] at hFlen
        simp at hFlen
        omega
      simpa [List.isEmpty_iff] using hne
    have hrem : (List.replicate (k - (natDigits (n % 10 ^ k)).length)
        (digitChar 0) ++ (natDigits (n % 10 ^ k) ++ rest)).dropWhile Char.isDigit
        = rest := by
      rw [← List.append_assoc, dropWhile_append_all _ hF0, dropWhile_boundary hb]
    have htw : ((if n / 10 ^ k = 0 then [digitChar 0] else natDigits (n / 10 ^ k)) ++
        ('.' :: (List.replicate (k - (natDigits (n % 10 ^ k)).length) (digitChar 0) ++
          (natDigits (n % 10 ^ k) ++ rest)))).takeWhile Char.isDigit
        = (if n / 10 ^ k = 0 then [digitChar 0] else natDigits (n / 10 ^ k)) := by
      rw [takeWhile_append_all _ hAdig, List.takeWhile_cons_of_neg (by decide)]
      simp
    have hdw : ((if n / 10 ^ k = 0 then [digitChar 0] else natDigits (n / 10 ^ k)) ++
        ('.' :: (List.replicate (k - (natDigits (n % 10 ^ k)).length) (digitChar 0) ++
          (natDigits (n % 10 ^ k) ++ rest)))).dropWhile Char.isDigit
        = '.' :: (List.replicate (k - (natDigits (n % 10 ^ k)).length) (digitChar 0) ++
          (natDigits (n % 10 ^ k) ++ rest)) := by
      rw [dropWhile_append_all _ hAdig, List.dropWhile_cons_of_neg (by decide)]
    rw [parseNumber]
    simp only [htw, hdw, hAne, Bool.false_eq_true, if_false, if_pos rfl, hfs, hFne,
      hFlen, hrem]
    rw [digitsToNat_intDigits, digitsToNat_replicate_zero, digitsToNat_natDigits]
    have key := Nat.div_add_mod n (10 ^ k)
    have keyQ : (10 : ℚ) ^ k * ((n / 10 ^ k : ℕ) : ℚ) + ((n % 10 ^ k : ℕ) : ℚ)
        = (n : ℚ) := by exact_mod_cast key
    have h10 : ((10 : ℚ)) ^ k ≠ 0 := by positivity
    rw [decValue]
    field_simp
    linear_combination keyQ

set_option maxHeartbeats 1600000 in
theorem matchMarker_prefix (ty : Bool) (cs : List Char) :
    matchMarker ("[silencedetect @ 0x0] silence_".toList ++
        (if ty then "start".toList else "end".toList) ++ ':' :: ' ' :: cs)
      = (parseNumber (skipWs cs)).bind fun qr => some ((ty, qr.1), qr.2) := by
  cases ty <;>
    simp [matchMarker, dropToRBracket, parseStartOrEnd, parseColon, skipWs,
      dropPrefixChars, List.dropWhile, isWsChar]

theorem matchMarker_markerLine (ty : Bool) (nk : Nat × Nat) (rest : List Char)
    (hb : ∀ c ∈ rest.head?, c.isDigit = false ∧ c ≠ '.') :
    matchMarker (silenceMarkerLine ty nk ++ rest) = some ((ty, decValue nk), rest) := by
  have hline : silenceMarkerLine ty nk ++ rest
      = "[silencedetect @ 0x0] silence_".toList ++
          (if ty then "start".toList else "end".toList) ++
          ':' :: ' ' :: (renderDecimal nk.1 nk.2 ++ rest) := by
    simp [silenceMarkerLine, List.append_assoc]
  rw [hline, matchMarker_prefix]
  rw [show skipWs (renderDecimal nk.1 nk.2 ++ rest) = renderDecimal nk.1 nk.2 ++ rest
    from dropWhile_append_of_ne_nil rest (renderDecimal_ne_nil nk.1 nk.2)
      (renderDecimal_not_ws nk.1 nk.2)]
  rw [parseNumber_renderDecimal nk.1 nk.2 rest hb]
  rfl

theorem silenceMarkerLine_ne_nil (ty : Bool) (nk : Nat × Nat) :
    silenceMarkerLine ty nk ≠ [] := by
  have hcons : silenceMarkerLine ty nk
      = '[' :: ("silencedetect @ 0x0] silence_".toList ++
          ((if ty then "start".toList else "end".toList) ++
            ':' :: ' ' :: renderDecimal nk.1 nk.2)) := rfl
  rw [hcons]
  exact List.cons_ne_nil _ _

theorem scanMarkersAux_markerLines :
    ∀ (ms : List (Bool × (Nat × Nat))) (fuel : Nat),
      (joinWith ['\n'] (ms.map fun m => silenceMarkerLine m.1 m.2)).length < fuel →
      scanMarkersAux fuel true (joinWith ['\n'] (ms.map fun m => silenceMarkerLine m.1 m.2))
        = ms.map fun m => (m.1, decValue m.2) := by
  intro ms
  induction ms with
  | nil =>
      intro fuel hf
      obtain ⟨f, rfl⟩ : ∃ f, fuel = f + 1 := ⟨fuel - 1, by omega⟩
      rfl
  | cons m ms ih =>
      intro fuel hf
      obtain ⟨c, t, hct⟩ : ∃ c t, silenceMarkerLine m.1 m.2 = c :: t := by
        cases hsl : silenceMarkerLine m.1 m.2 with
        | nil => exact absurd hsl (silenceMarkerLine_ne_nil m.1 m.2)
        | cons c t => exact ⟨c, t, rfl⟩
      cases ms with
      | nil =>
          have hmm := matchMarker_markerLine m.1 m.2 [] (by simp)
          rw [List.append_nil, hct] at hmm
          have htext : joinWith ['\n'] ([m].map fun x => silenceMarkerLine x.1 x.2)
              = c :: t := by
            simpa [joinWith] using hct
          rw [htext] at hf ⊢
          obtain ⟨f, rfl⟩ : ∃ f, fuel = f + 1 := ⟨fuel - 1, by omega⟩
          have hfpos : 0 < f := by
            simp only [List.length_cons] at hf
            omega
          obtain ⟨f1, rfl⟩ : ∃ f1, f = f1 + 1 := ⟨f - 1, by omega⟩
          simp [scanMarkersAux, hmm]
      | cons m2 ms2 =>
          have hmm := matchMarker_markerLine m.1 m.2
            ('\n' :: joinWith ['\n'] ((m2 :: ms2).map fun x => silenceMarkerLine x.1 x.2))
            (by
              intro x hx
              simp only [List.head?_cons, Option.mem_some_iff] at hx
              subst hx
              exact ⟨by decide, by decide⟩)
          rw [hct, List.cons_append] at hmm
          have htext : joinWith ['\n'] ((m :: m2 :: ms2).map fun x => silenceMarkerLine x.1 x.2)
              = c :: (t ++ '\n' ::
                  joinWith ['\n'] ((m2 :: ms2).map fun x => silenceMarkerLine x.1 x.2)) := by
            simp [joinWith, hct]
          rw [htext] at hf ⊢
          simp only [List.length_cons, List.length_append] at hf
          obtain ⟨f, rfl⟩ : ∃ f, fuel = f + 1 := ⟨fuel - 1, by omega⟩
          obtain ⟨f1, rfl⟩ : ∃ f1, f = f1 + 1 := ⟨f - 1, by omega⟩
          have hT : (joinWith ['\n']
              ((m2 :: ms2).map fun x => silenceMarkerLine x.1 x.2)).length < f1 := by
            omega
          simp only [scanMarkersAux, hmm, if_pos]
          rw [show isLineTerminator '\n' = true from rfl]
          rw [ih f1 hT]
          simp

theorem markerLines_flatten (l : List ((Nat × Nat) × (Nat × Nat))) :
    (l.map fun p => [silenceMarkerLine true p.1, silenceMarkerLine false p.2]).flatten
      = ((l.map fun p => [((true : Bool), p.1), ((false : Bool), p.2)]).flatten).map
          fun m => silenceMarkerLine m.1 m.2 := by
  induction l with
  | nil => rfl
  | cons p rest ih => simp [ih]

theorem markerSpecs_values (l : List ((Nat × Nat) × (Nat × Nat))) :
    ((l.map fun p => [((true : Bool), p.1), ((false : Bool), p.2)]).flatten).map
        (fun m => (m.1, decValue m.2))
      = markersOfPairs (l.map fun p => (decValue p.1, decValue p.2)) := by
  induction l with
  | nil => rfl
  | cons p rest ih =>
      simp only [List.map_cons, List.flatten_cons, List.map_append, markersOfPairs] at ih ⊢
      simp [ih]

/-- Claim C6. Round trip: rendering any list of intervals (each timestamp given
by a decimal numeral, the only numerals the diagnostic format carries) as
balanced, correctly ordered `silence_start`/`silence_end` marker lines and
parsing the resulting text returns exactly the denoted intervals, in order. -/
theorem render_parse_roundtrip (l : List ((Nat × Nat) × (Nat × Nat))) :
    getSilentPeriodListFromSilenceDetectOutput (renderSilenceDetectOutput l)
      = .ok (l.map fun p => (decValue p.1, decValue p.2)) := by
  unfold getSilentPeriodListFromSilenceDetectOutput silenceMarkersOf
  rw [show (renderSilenceDetectOutput l).toList
      = joinWith ['\n'] ((l.map fun p =>
          [silenceMarkerLine true p.1, silenceMarkerLine false p.2]).flatten) from rfl]
  rw [markerLines_flatten l]
  rw [scanMarkersAux_markerLines _ _ (by omega)]
  rw [markerSpecs_values l]
  simpa using (pairSilenceMarkers_balanced (renderSilenceDetectOutput l)
    (l.map fun p => (decValue p.1, decValue p.2)) []).1

end RemoveSilentScene
